import Mathlib

/-!
Verification of the log-webhook ingestion service (main.go).

The request handler is modelled as a pure function from an HTTP request
(method, Content-Encoding header value, raw body bytes) to the HTTP
response together with the bytes written to the log sink (standard
output).  Bytes are modelled as natural numbers (their 8-bit value) and
byte sequences as List Nat.

The handler validates and compacts the body with encoding/json Compact;
that library routine is modelled here by an executable JSON scanner that
accepts exactly one RFC 8259 value (surrounded by optional insignificant
whitespace) and reproduces the input with the insignificant whitespace
removed, keeping every lexeme byte-for-byte, which is precisely what the
Go scanner does.  Gzip decompression (compress/gzip plus the subsequent
io.ReadAll) is an external library and is a parameter of the handler: a
function from the raw body bytes to either the decompressed bytes or one
of the two failure modes the Go code distinguishes.
-/

namespace LogWebhook

/-- JSON insignificant whitespace bytes: space, tab, newline, carriage return. -/
def isWS (c : Nat) : Bool := c == 32 || c == 9 || c == 10 || c == 13

/-- Drop leading insignificant whitespace. -/
def skipWS : List Nat → List Nat
  | [] => []
  | c :: cs => if isWS c then skipWS cs else c :: cs

/-- ASCII decimal digit. -/
def isDigit (c : Nat) : Bool := decide (48 ≤ c) && decide (c ≤ 57)

/-- Split off the longest leading run of decimal digits. -/
def takeDigits : List Nat → List Nat × List Nat
  | [] => ([], [])
  | c :: cs =>
    if isDigit c then (c :: (takeDigits cs).1, (takeDigits cs).2)
    else ([], c :: cs)

/-- Optional fraction part of a JSON number: a dot followed by at least
one digit, or nothing. -/
def parseFrac : List Nat → Option (List Nat × List Nat)
  | 46 :: c :: cs2 =>
    if isDigit c then some (46 :: c :: (takeDigits cs2).1, (takeDigits cs2).2)
    else none
  | [46] => none
  | s => some ([], s)

/-- Optional exponent part of a JSON number: e or E, an optional sign,
then at least one digit, or nothing. -/
def parseExp : List Nat → Option (List Nat × List Nat)
  | c :: s1 :: cs2 =>
    if c == 101 || c == 69 then
      if s1 == 43 || s1 == 45 then
        match cs2 with
        | d :: cs3 =>
          if isDigit d then some (c :: s1 :: d :: (takeDigits cs3).1, (takeDigits cs3).2)
          else none
        | [] => none
      else if isDigit s1 then some (c :: s1 :: (takeDigits cs2).1, (takeDigits cs2).2)
      else none
    else some ([], c :: s1 :: cs2)
  | [c] => if c == 101 || c == 69 then none else some ([], [c])
  | [] => some ([], [])

/-- Number lexeme after the optional minus sign: an integer part (a
single zero, or a nonzero digit followed by digits), then the optional
fraction and exponent parts. -/
def parseNumCore : List Nat → Option (List Nat × List Nat)
  | [] => none
  | c :: cs =>
    if c == 48 then
      match parseFrac cs with
      | none => none
      | some (f, r1) =>
        match parseExp r1 with
        | none => none
        | some (e, r2) => some (48 :: (f ++ e), r2)
    else if isDigit c then
      match parseFrac (takeDigits cs).2 with
      | none => none
      | some (f, r1) =>
        match parseExp r1 with
        | none => none
        | some (e, r2) => some (c :: ((takeDigits cs).1 ++ (f ++ e)), r2)
    else none

/-- Complete JSON number lexeme per RFC 8259, as enforced by the Go
scanner: optional minus sign, then the core. -/
def parseNum : List Nat → Option (List Nat × List Nat)
  | 45 :: cs =>
    match parseNumCore cs with
    | some (l, r) => some (45 :: l, r)
    | none => none
  | s => parseNumCore s

/-- Single-character escape codes allowed after a backslash inside a
JSON string: quote, backslash, slash, b, f, n, r, t. -/
def isSimpleEsc (c : Nat) : Bool :=
  c == 34 || c == 92 || c == 47 || c == 98 || c == 102 || c == 110 || c == 114 || c == 116

/-- ASCII hexadecimal digit. -/
def isHex (c : Nat) : Bool :=
  (decide (48 ≤ c) && decide (c ≤ 57)) ||
  (decide (97 ≤ c) && decide (c ≤ 102)) ||
  (decide (65 ≤ c) && decide (c ≤ 70))

/-- Parse JSON string contents up to and including the closing quote
(the opening quote has already been consumed).  Returns the raw contents
without the closing quote, and the remaining input after it.  Mirrors
the Go scanner: any byte at or above 0x20 other than quote and backslash
stands for itself, a backslash starts one of the fixed escapes or a
four-hex-digit unicode escape, and control bytes are rejected. -/
def parseStr : List Nat → Option (List Nat × List Nat)
  | [] => none
  | 34 :: cs => some ([], cs)
  | 92 :: 117 :: h1 :: h2 :: h3 :: h4 :: cs3 =>
    if isHex h1 && isHex h2 && isHex h3 && isHex h4 then
      match parseStr cs3 with
      | some (l, r) => some (92 :: 117 :: h1 :: h2 :: h3 :: h4 :: l, r)
      | none => none
    else none
  | 92 :: e :: cs2 =>
    if isSimpleEsc e then
      match parseStr cs2 with
      | some (l, r) => some (92 :: e :: l, r)
      | none => none
    else none
  | [92] => none
  | c :: cs =>
    if 32 ≤ c then
      match parseStr cs with
      | some (l, r) => some (c :: l, r)
      | none => none
    else none

/-- Valid raw string contents: exactly the sequences accepted by
parseStr before the closing quote. -/
def strOK : List Nat → Bool
  | [] => true
  | 92 :: 117 :: h1 :: h2 :: h3 :: h4 :: cs3 =>
    isHex h1 && isHex h2 && isHex h3 && isHex h4 && strOK cs3
  | 92 :: e :: cs2 => isSimpleEsc e && strOK cs2
  | [92] => false
  | c :: cs => decide (32 ≤ c) && decide (c ≠ 34) && decide (c ≠ 92) && strOK cs

/-- Shape of the integer part of a number lexeme. -/
def IntPartP (l : List Nat) : Prop :=
  l = [48] ∨ ∃ c ds, l = c :: ds ∧ 49 ≤ c ∧ c ≤ 57 ∧ ds.all isDigit = true

/-- Shape of the optional fraction part of a number lexeme. -/
def FracPartP (l : List Nat) : Prop :=
  l = [] ∨ ∃ d ds, l = 46 :: d :: ds ∧ isDigit d = true ∧ ds.all isDigit = true

/-- Shape of the optional exponent part of a number lexeme. -/
def ExpPartP (l : List Nat) : Prop :=
  l = [] ∨ ∃ e sg d ds, (e = 101 ∨ e = 69) ∧ (sg = [] ∨ sg = [43] ∨ sg = [45]) ∧
    l = e :: (sg ++ d :: ds) ∧ isDigit d = true ∧ ds.all isDigit = true

/-- Shape of a complete JSON number lexeme. -/
def NumLexP (l : List Nat) : Prop :=
  ∃ sg i f e, (sg = [] ∨ sg = [45]) ∧ IntPartP i ∧ FracPartP f ∧ ExpPartP e ∧
    l = sg ++ (i ++ (f ++ e))

/-- Bytes that may legally start the remainder after a serialized value
inside a compact document: nothing, or a comma, closing bracket, or
closing brace. -/
def delimH : List Nat → Bool
  | [] => true
  | c :: _ => c == 44 || c == 93 || c == 125

/-- The remainder starts with an exponent marker or with a delimiter. -/
def expOrDelimH : List Nat → Bool
  | [] => true
  | c :: _ => c == 101 || c == 69 || c == 44 || c == 93 || c == 125

/-- The remainder does not start with a digit. -/
def noDigitH : List Nat → Bool
  | [] => true
  | c :: _ => !isDigit c

theorem delimH_expOrDelimH {r : List Nat} (h : delimH r = true) : expOrDelimH r = true := by
  cases r with
  | nil => rfl
  | cons c t =>
    simp only [delimH, Bool.or_eq_true, beq_iff_eq] at h
    simp only [expOrDelimH, Bool.or_eq_true, beq_iff_eq]
    omega

theorem expOrDelimH_noDigit {r : List Nat} (h : expOrDelimH r = true) : noDigitH r = true := by
  cases r with
  | nil => rfl
  | cons c t =>
    simp only [expOrDelimH, Bool.or_eq_true, beq_iff_eq] at h
    simp only [noDigitH, isDigit, Bool.not_eq_true', Bool.and_eq_false_iff, decide_eq_false_iff_not]
    omega

theorem takeDigits_decomp (s : List Nat) :
    s = (takeDigits s).1 ++ (takeDigits s).2 ∧ (takeDigits s).1.all isDigit = true := by
  induction s with
  | nil => simp [takeDigits]
  | cons c cs ih =>
    by_cases h : isDigit c
    · simpa [takeDigits, h] using ih
    · simp [takeDigits, h]

theorem takeDigits_append {ds r : List Nat} (h1 : ds.all isDigit = true)
    (h2 : noDigitH r = true) : takeDigits (ds ++ r) = (ds, r) := by
  induction ds with
  | nil =>
    cases r with
    | nil => rfl
    | cons c t =>
      have hc : isDigit c = false := by simpa [noDigitH] using h2
      simp [takeDigits, hc]
  | cons d ds ih =>
    simp only [List.all_cons, Bool.and_eq_true] at h1
    simp [takeDigits, h1.1, ih h1.2]

theorem parseFrac_sound {s f r : List Nat} (h : parseFrac s = some (f, r)) :
    FracPartP f ∧ s = f ++ r := by
  rw [parseFrac.eq_def] at h
  split at h
  · next c cs2 =>
    by_cases hd : isDigit c
    · simp only [hd, if_true, Option.some.injEq, Prod.mk.injEq] at h
      obtain ⟨hf, hr⟩ := h
      subst hf; subst hr
      refine ⟨Or.inr ⟨c, (takeDigits cs2).1, rfl, hd, (takeDigits_decomp cs2).2⟩, ?_⟩
      simp only [List.cons_append]
      exact congrArg (fun l => 46 :: c :: l) (takeDigits_decomp cs2).1
    · simp [hd] at h
  · simp at h
  · simp only [Option.some.injEq, Prod.mk.injEq] at h
    obtain ⟨hf, hr⟩ := h
    subst hf; subst hr
    exact ⟨Or.inl rfl, rfl⟩

theorem parseFrac_rt {f r : List Nat} (hf : FracPartP f) (hr : expOrDelimH r = true) :
    parseFrac (f ++ r) = some (f, r) := by
  rcases hf with rfl | ⟨d, ds, rfl, hd, hds⟩
  · cases r with
    | nil => rfl
    | cons c t =>
      simp only [expOrDelimH, Bool.or_eq_true, beq_iff_eq] at hr
      simp only [List.nil_append]
      rcases hr with (((rfl | rfl) | rfl) | rfl) | rfl <;> rfl
  · have hnd : noDigitH r = true := expOrDelimH_noDigit hr
    simp only [List.cons_append]
    simp [parseFrac, hd, takeDigits_append hds hnd]

theorem parseExp_sound {s e r : List Nat} (h : parseExp s = some (e, r)) :
    ExpPartP e ∧ s = e ++ r := by
  rw [parseExp.eq_def] at h
  split at h
  · next c s1 cs2 =>
    by_cases hc : (c == 101 || c == 69) = true
    · rw [if_pos hc] at h
      simp only [Bool.or_eq_true, beq_iff_eq] at hc
      by_cases hs1 : (s1 == 43 || s1 == 45) = true
      · rw [if_pos hs1] at h
        simp only [Bool.or_eq_true, beq_iff_eq] at hs1
        cases cs2 with
        | nil => simp at h
        | cons d cs3 =>
          by_cases hd : isDigit d
          · simp only [hd, if_true, Option.some.injEq, Prod.mk.injEq] at h
            obtain ⟨he, hr⟩ := h
            subst he; subst hr
            constructor
            · refine Or.inr ⟨c, [s1], d, (takeDigits cs3).1, hc, ?_, rfl, hd,
                (takeDigits_decomp cs3).2⟩
              rcases hs1 with rfl | rfl
              · exact Or.inr (Or.inl rfl)
              · exact Or.inr (Or.inr rfl)
            · simp only [List.cons_append]
              exact congrArg (fun l => c :: s1 :: d :: l) (takeDigits_decomp cs3).1
          · simp [hd] at h
      · rw [if_neg hs1] at h
        by_cases hs1d : isDigit s1
        · simp only [hs1d, if_true, Option.some.injEq, Prod.mk.injEq] at h
          obtain ⟨he, hr⟩ := h
          subst he; subst hr
          constructor
          · exact Or.inr ⟨c, [], s1, (takeDigits cs2).1, hc, Or.inl rfl, rfl, hs1d,
              (takeDigits_decomp cs2).2⟩
          · simp only [List.cons_append, List.nil_append]
            exact congrArg (fun l => c :: s1 :: l) (takeDigits_decomp cs2).1
        · simp [hs1d] at h
    · rw [if_neg hc] at h
      simp only [Option.some.injEq, Prod.mk.injEq] at h
      obtain ⟨he, hr⟩ := h
      subst he; subst hr
      exact ⟨Or.inl rfl, rfl⟩
  · next c =>
    by_cases hc : (c == 101 || c == 69) = true
    · simp [hc] at h
    · rw [if_neg hc] at h
      simp only [Option.some.injEq, Prod.mk.injEq] at h
      obtain ⟨he, hr⟩ := h
      subst he; subst hr
      exact ⟨Or.inl rfl, rfl⟩
  · simp only [Option.some.injEq, Prod.mk.injEq] at h
    obtain ⟨he, hr⟩ := h
    subst he; subst hr
    exact ⟨Or.inl rfl, rfl⟩

theorem parseExp_rt {e r : List Nat} (he : ExpPartP e) (hr : delimH r = true) :
    parseExp (e ++ r) = some (e, r) := by
  rcases he with rfl | ⟨ec, sg, d, ds, hec, hsg, rfl, hd, hds⟩
  · cases r with
    | nil => rfl
    | cons c t =>
      simp only [delimH, Bool.or_eq_true, beq_iff_eq] at hr
      simp only [List.nil_append]
      rcases hr with (rfl | rfl) | rfl <;> cases t <;> rfl
  · have hnd : noDigitH r = true := expOrDelimH_noDigit (delimH_expOrDelimH hr)
    have hd4345 : (d == 43 || d == 45) = false := by
      simp only [isDigit, Bool.and_eq_true, decide_eq_true_eq] at hd
      simp only [Bool.or_eq_false_iff, beq_eq_false_iff_ne]
      omega
    rcases hsg with rfl | rfl | rfl
    · simp only [List.nil_append, List.cons_append]
      rcases hec with rfl | rfl <;>
        simp [parseExp, hd4345, hd, takeDigits_append hds hnd]
    · simp only [List.cons_append, List.nil_append]
      rcases hec with rfl | rfl <;>
        simp [parseExp, hd, takeDigits_append hds hnd]
    · simp only [List.cons_append, List.nil_append]
      rcases hec with rfl | rfl <;>
        simp [parseExp, hd, takeDigits_append hds hnd]

theorem frac_exp_noDigit {f rest : List Nat} (hf : FracPartP f)
    (hrest : expOrDelimH rest = true) : noDigitH (f ++ rest) = true := by
  rcases hf with rfl | ⟨d, ds, rfl, hd, hds⟩
  · simpa using expOrDelimH_noDigit hrest
  · simp [noDigitH, isDigit]

theorem exp_delim_expOrDelim {e r : List Nat} (he : ExpPartP e) (hr : delimH r = true) :
    expOrDelimH (e ++ r) = true := by
  rcases he with rfl | ⟨ec, sg, d, ds, hec, hsg, rfl, hd, hds⟩
  · simpa using delimH_expOrDelimH hr
  · rcases hec with rfl | rfl <;> simp [expOrDelimH]

theorem parseNumCore_sound {s l r : List Nat} (h : parseNumCore s = some (l, r)) :
    (∃ i f e, IntPartP i ∧ FracPartP f ∧ ExpPartP e ∧ l = i ++ (f ++ e)) ∧ s = l ++ r := by
  rw [parseNumCore.eq_def] at h
  split at h
  · simp at h
  · next c cs =>
    by_cases hc : (c == 48) = true
    · rw [if_pos hc] at h
      simp only [beq_iff_eq] at hc
      subst hc
      split at h
      · simp at h
      · next f r1 hfr =>
        split at h
        · simp at h
        · next e r2 hex =>
          simp only [Option.some.injEq, Prod.mk.injEq] at h
          obtain ⟨hl, hr⟩ := h
          subst hl; subst hr
          obtain ⟨hfp, hcs⟩ := parseFrac_sound hfr
          obtain ⟨hep, hr1⟩ := parseExp_sound hex
          subst hr1
          refine ⟨⟨[48], f, e, Or.inl rfl, hfp, hep, rfl⟩, ?_⟩
          simp [hcs]
    · rw [if_neg hc] at h
      by_cases hcd : isDigit c
      · rw [if_pos hcd] at h
        split at h
        · simp at h
        · next f r1 hfr =>
          split at h
          · simp at h
          · next e r2 hex =>
            simp only [Option.some.injEq, Prod.mk.injEq] at h
            obtain ⟨hl, hr⟩ := h
            subst hl; subst hr
            obtain ⟨hfp, hcs⟩ := parseFrac_sound hfr
            obtain ⟨hep, hr1⟩ := parseExp_sound hex
            subst hr1
            have hc49 : 49 ≤ c ∧ c ≤ 57 := by
              simp only [isDigit, Bool.and_eq_true, decide_eq_true_eq] at hcd
              simp only [beq_iff_eq] at hc
              omega
            refine ⟨⟨c :: (takeDigits cs).1, f, e,
              Or.inr ⟨c, (takeDigits cs).1, rfl, hc49.1, hc49.2, (takeDigits_decomp cs).2⟩,
              hfp, hep, by simp⟩, ?_⟩
            have := (takeDigits_decomp cs).1
            simp only [List.cons_append, List.append_assoc]
            rw [← hcs, ← this]
      · rw [if_neg hcd] at h
        simp at h

theorem parseNumCore_rt {i f e r : List Nat} (hi : IntPartP i) (hf : FracPartP f)
    (he : ExpPartP e) (hr : delimH r = true) :
    parseNumCore (i ++ (f ++ (e ++ r))) = some (i ++ (f ++ e), r) := by
  have hfr : expOrDelimH (e ++ r) = true := exp_delim_expOrDelim he hr
  have hfrac : parseFrac (f ++ (e ++ r)) = some (f, e ++ r) := parseFrac_rt hf hfr
  have hexp : parseExp (e ++ r) = some (e, r) := parseExp_rt he hr
  rcases hi with rfl | ⟨c, ds, rfl, hc1, hc2, hds⟩
  · simp only [List.cons_append, List.nil_append]
    simp [parseNumCore, hfrac, hexp]
  · have hc48 : (c == 48) = false := by simp only [beq_eq_false_iff_ne]; omega
    have hcdig : isDigit c = true := by
      simp only [isDigit, Bool.and_eq_true, decide_eq_true_eq]; omega
    have hnd : noDigitH (f ++ (e ++ r)) = true := frac_exp_noDigit hf hfr
    have htd : takeDigits (ds ++ (f ++ (e ++ r))) = (ds, f ++ (e ++ r)) :=
      takeDigits_append hds hnd
    simp only [List.cons_append, List.append_assoc]
    simp [parseNumCore, hc48, hcdig, htd, hfrac, hexp]

theorem parseNum_sound {s l r : List Nat} (h : parseNum s = some (l, r)) :
    NumLexP l ∧ s = l ++ r := by
  rw [parseNum.eq_def] at h
  split at h
  · next cs =>
    cases hc : parseNumCore cs with
    | none => rw [hc] at h; simp at h
    | some p =>
      obtain ⟨l2, r2⟩ := p
      rw [hc] at h
      simp only [Option.some.injEq, Prod.mk.injEq] at h
      obtain ⟨hl, hr⟩ := h
      subst hl; subst hr
      obtain ⟨⟨i, f, e, hi, hf, he, rfl⟩, rfl⟩ := parseNumCore_sound hc
      exact ⟨⟨[45], i, f, e, Or.inr rfl, hi, hf, he, rfl⟩, rfl⟩
  · obtain ⟨⟨i, f, e, hi, hf, he, rfl⟩, rfl⟩ := parseNumCore_sound h
    exact ⟨⟨[], i, f, e, Or.inl rfl, hi, hf, he, by simp⟩, rfl⟩

theorem parseNum_rt {l r : List Nat} (hl : NumLexP l) (hr : delimH r = true) :
    parseNum (l ++ r) = some (l, r) := by
  obtain ⟨sg, i, f, e, hsg, hi, hf, he, rfl⟩ := hl
  have hcore := parseNumCore_rt hi hf he hr
  rcases hsg with rfl | rfl
  · simp only [List.nil_append]
    rw [parseNum.eq_def]
    split
    · next cs heq =>
      exfalso
      rcases hi with rfl | ⟨c, ds, rfl, hc1, hc2, hds⟩
      · simp only [List.cons_append, List.nil_append, List.cons.injEq] at heq
        omega
      · simp only [List.cons_append, List.append_assoc, List.cons.injEq] at heq
        omega
    · next hne =>
      rw [show i ++ (f ++ e) ++ r = i ++ (f ++ (e ++ r)) by simp]
      exact hcore
  · simp only [List.cons_append, List.nil_append, List.append_assoc]
    simp only [List.append_assoc] at hcore
    simp [parseNum, hcore]

theorem strOK_esc {e : Nat} {cs2 : List Nat} (hse : isSimpleEsc e = true) :
    strOK (92 :: e :: cs2) = strOK cs2 := by
  simp only [isSimpleEsc, Bool.or_eq_true, beq_iff_eq] at hse
  rcases hse with (((((((rfl | rfl) | rfl) | rfl) | rfl) | rfl) | rfl) | rfl) <;> rfl

theorem parseStr_esc {e : Nat} {cs2 : List Nat} (hse : isSimpleEsc e = true) :
    parseStr (92 :: e :: cs2) =
      match parseStr cs2 with
      | some (l, r) => some (92 :: e :: l, r)
      | none => none := by
  simp only [isSimpleEsc, Bool.or_eq_true, beq_iff_eq] at hse
  rcases hse with (((((((rfl | rfl) | rfl) | rfl) | rfl) | rfl) | rfl) | rfl) <;>
    (rcases hps : parseStr cs2 with _ | ⟨l2, r2⟩ <;> simp [parseStr, hps, isSimpleEsc])

theorem strOK_plain {c : Nat} {cs : List Nat} (h34 : c ≠ 34) (h92 : c ≠ 92) :
    strOK (c :: cs) = (decide (32 ≤ c) && strOK cs) := by
  rw [strOK.eq_def]
  split
  · rename_i heq
    simp at heq
  · rename_i heq
    simp only [List.cons.injEq] at heq
    exact absurd heq.1 h92
  · rename_i heq
    simp only [List.cons.injEq] at heq
    exact absurd heq.1 h92
  · rename_i heq
    simp only [List.cons.injEq] at heq
    exact absurd heq.1 h92
  · rename_i heq
    simp only [List.cons.injEq] at heq
    obtain ⟨h1, h2⟩ := heq
    subst h1; subst h2
    simp [h34, h92]

theorem parseStr_plain {c : Nat} {cs : List Nat} (h34 : c ≠ 34) (h92 : c ≠ 92) :
    parseStr (c :: cs) =
      (if 32 ≤ c then
        match parseStr cs with
        | some (l, r) => some (c :: l, r)
        | none => none
      else none) := by
  rw [parseStr.eq_def]
  split
  · rename_i heq
    simp at heq
  · rename_i heq
    simp only [List.cons.injEq] at heq
    exact absurd heq.1 h34
  · rename_i heq
    simp only [List.cons.injEq] at heq
    exact absurd heq.1 h92
  · rename_i heq
    simp only [List.cons.injEq] at heq
    exact absurd heq.1 h92
  · rename_i heq
    simp only [List.cons.injEq] at heq
    exact absurd heq.1 h92
  · rename_i heq
    simp only [List.cons.injEq] at heq
    obtain ⟨h1, h2⟩ := heq
    subst h1; subst h2
    rfl

theorem parseStr_rt_aux (n : Nat) : ∀ l r : List Nat, l.length ≤ n → strOK l = true →
    parseStr (l ++ 34 :: r) = some (l, r) := by
  induction n with
  | zero =>
    intro l r hlen _
    have hl : l = [] := List.eq_nil_of_length_eq_zero (Nat.le_zero.mp hlen)
    subst hl
    rfl
  | succ n ih =>
    intro l r hlen hok
    rw [strOK.eq_def] at hok
    split at hok
    · rfl
    · rename_i h1 h2 h3 h4 cs3
      simp only [Bool.and_eq_true] at hok
      obtain ⟨⟨⟨⟨hx1, hx2⟩, hx3⟩, hx4⟩, hok3⟩ := hok
      simp only [List.length_cons] at hlen
      have hrec := ih cs3 r (by omega) hok3
      simp only [List.cons_append]
      simp [parseStr, hx1, hx2, hx3, hx4, hrec]
    · rename_i e cs2 hno
      simp only [Bool.and_eq_true] at hok
      obtain ⟨hse, hok2⟩ := hok
      simp only [List.length_cons] at hlen
      have hrec := ih cs2 r (by omega) hok2
      simp only [List.cons_append]
      rw [parseStr_esc hse, hrec]
    · simp at hok
    · rename_i c cs hno1 hno2 hno3
      simp only [Bool.and_eq_true, decide_eq_true_eq] at hok
      obtain ⟨⟨⟨h32, h34⟩, h92⟩, hok2⟩ := hok
      simp only [List.length_cons] at hlen
      have hrec := ih cs r (by omega) hok2
      simp only [List.cons_append]
      rw [parseStr_plain h34 h92, if_pos h32, hrec]

/-- Serializing valid string contents and re-parsing them consumes exactly
the contents and the closing quote. -/
theorem parseStr_rt {l r : List Nat} (hl : strOK l = true) :
    parseStr (l ++ 34 :: r) = some (l, r) :=
  parseStr_rt_aux l.length l r (Nat.le_refl _) hl

theorem parseStr_sound_aux (n : Nat) : ∀ s l r : List Nat, s.length ≤ n →
    parseStr s = some (l, r) → strOK l = true ∧ s = l ++ 34 :: r := by
  induction n with
  | zero =>
    intro s l r hlen h
    have hs : s = [] := List.eq_nil_of_length_eq_zero (Nat.le_zero.mp hlen)
    subst hs
    simp [parseStr] at h
  | succ n ih =>
    intro s l r hlen h
    rw [parseStr.eq_def] at h
    split at h
    · simp at h
    · simp only [Option.some.injEq, Prod.mk.injEq] at h
      obtain ⟨hl2, hr2⟩ := h
      subst hl2; subst hr2
      exact ⟨rfl, rfl⟩
    · rename_i h1 h2 h3 h4 cs3
      by_cases hhex : (isHex h1 && isHex h2 && isHex h3 && isHex h4) = true
      · rw [if_pos hhex] at h
        split at h
        · rename_i l2 r2 hrec
          simp only [Option.some.injEq, Prod.mk.injEq] at h
          obtain ⟨hl2, hr2⟩ := h
          subst hl2; subst hr2
          simp only [List.length_cons] at hlen
          obtain ⟨hok, hdec⟩ := ih cs3 l2 r2 (by omega) hrec
          simp only [Bool.and_eq_true] at hhex
          constructor
          · simp [strOK, hhex.1.1.1, hhex.1.1.2, hhex.1.2, hhex.2, hok]
          · simp [hdec]
        · simp at h
      · rw [if_neg hhex] at h
        simp at h
    · rename_i e cs2 hno
      by_cases hse : isSimpleEsc e = true
      · rw [if_pos hse] at h
        split at h
        · rename_i l2 r2 hrec
          simp only [Option.some.injEq, Prod.mk.injEq] at h
          obtain ⟨hl2, hr2⟩ := h
          subst hl2; subst hr2
          simp only [List.length_cons] at hlen
          obtain ⟨hok, hdec⟩ := ih cs2 l2 r2 (by omega) hrec
          constructor
          · rw [strOK_esc hse]
            exact hok
          · simp [hdec]
        · simp at h
      · rw [if_neg hse] at h
        simp at h
    · simp at h
    · rename_i c cs hno2 hno3 hno4 hno5
      by_cases h32 : 32 ≤ c
      · rw [if_pos h32] at h
        split at h
        · rename_i l2 r2 hrec
          simp only [Option.some.injEq, Prod.mk.injEq] at h
          obtain ⟨hl2, hr2⟩ := h
          subst hl2; subst hr2
          simp only [List.length_cons] at hlen
          obtain ⟨hok, hdec⟩ := ih cs l2 r2 (by omega) hrec
          have hc34 : c ≠ 34 := fun hc => hno2 hc
          have hc92 : c ≠ 92 := by
            intro hc
            cases cs with
            | nil => exact hno5 hc rfl
            | cons e2 cs2 => exact hno4 e2 cs2 hc rfl
          constructor
          · rw [strOK_plain hc34 hc92]
            simp [h32, hok]
          · simp [hdec]
        · simp at h
      · rw [if_neg h32] at h
        simp at h

/-- A successful string-contents parse yields valid contents and the input
decomposes as the contents, the closing quote, and the rest. -/
theorem parseStr_sound {s l r : List Nat} (h : parseStr s = some (l, r)) :
    strOK l = true ∧ s = l ++ 34 :: r :=
  parseStr_sound_aux s.length s l r (Nat.le_refl _) h

theorem strOK_ge32_aux (n : Nat) : ∀ l : List Nat, l.length ≤ n → strOK l = true →
    l.all (fun c => decide (32 ≤ c)) = true := by
  induction n with
  | zero =>
    intro l hlen _
    have : l = [] := List.eq_nil_of_length_eq_zero (Nat.le_zero.mp hlen)
    subst this
    rfl
  | succ n ih =>
    intro l hlen hok
    rw [strOK.eq_def] at hok
    split at hok
    · rfl
    · rename_i h1 h2 h3 h4 cs3
      simp only [Bool.and_eq_true] at hok
      obtain ⟨⟨⟨⟨hx1, hx2⟩, hx3⟩, hx4⟩, hok3⟩ := hok
      simp only [List.length_cons] at hlen
      have hx : ∀ x : Nat, isHex x = true → 32 ≤ x := by
        intro x hxh
        simp only [isHex, Bool.or_eq_true, Bool.and_eq_true, decide_eq_true_eq] at hxh
        omega
      simp only [List.all_cons, Bool.and_eq_true, decide_eq_true_eq]
      exact ⟨by omega, by omega, hx h1 hx1, hx h2 hx2, hx h3 hx3, hx h4 hx4,
        ih cs3 (by omega) hok3⟩
    · rename_i e cs2 hno
      simp only [Bool.and_eq_true] at hok
      obtain ⟨hse, hok2⟩ := hok
      simp only [List.length_cons] at hlen
      have he32 : 32 ≤ e := by
        simp only [isSimpleEsc, Bool.or_eq_true, beq_iff_eq] at hse
        omega
      simp only [List.all_cons, Bool.and_eq_true, decide_eq_true_eq]
      exact ⟨by omega, he32, ih cs2 (by omega) hok2⟩
    · simp at hok
    · rename_i c cs hno1 hno2 hno3
      simp only [Bool.and_eq_true, decide_eq_true_eq] at hok
      obtain ⟨⟨⟨h32, _⟩, _⟩, hok2⟩ := hok
      simp only [List.length_cons] at hlen
      simp only [List.all_cons, Bool.and_eq_true, decide_eq_true_eq]
      exact ⟨h32, ih cs (by omega) hok2⟩

/-- Every byte of valid string contents is at least 0x20; in particular no
newline byte occurs inside a compact string lexeme. -/
theorem strOK_ge32 {l : List Nat} (hl : strOK l = true) :
    l.all (fun c => decide (32 ≤ c)) = true :=
  strOK_ge32_aux l.length l (Nat.le_refl _) hl

/-- JSON value trees as recognised by the scanner.  String and number
lexemes are kept verbatim (raw bytes), so serialization reproduces the
original lexemes exactly, as json.Compact does. -/
inductive Json where
  | jnull
  | jtrue
  | jfalse
  | jnum (l : List Nat)
  | jstr (l : List Nat)
  | jarr (xs : List Json)
  | jobj (ms : List (List Nat × Json))

mutual

/-- Compact serialization of a JSON value: the lexemes joined by the
structural punctuation, with no whitespace. -/
def serialize : Json → List Nat
  | .jnull => [110, 117, 108, 108]
  | .jtrue => [116, 114, 117, 101]
  | .jfalse => [102, 97, 108, 115, 101]
  | .jnum l => l
  | .jstr l => 34 :: (l ++ [34])
  | .jarr [] => [91, 93]
  | .jarr (x :: xs) => 91 :: (serialize x ++ (serTail xs ++ [93]))
  | .jobj [] => [123, 125]
  | .jobj (m :: ms) => 123 :: (serMem m ++ (serMemTail ms ++ [125]))

/-- One object member: quoted key, colon, value. -/
def serMem : List Nat × Json → List Nat
  | (k, v) => 34 :: (k ++ (34 :: 58 :: serialize v))

/-- Remaining array elements, each preceded by a comma. -/
def serTail : List Json → List Nat
  | [] => []
  | x :: xs => 44 :: (serialize x ++ serTail xs)

/-- Remaining object members, each preceded by a comma. -/
def serMemTail : List (List Nat × Json) → List Nat
  | [] => []
  | m :: ms => 44 :: (serMem m ++ serMemTail ms)

end

mutual

/-- Well-formedness of a parsed JSON tree: every lexeme has the shape the
scanner guarantees. -/
def ValidJ : Json → Prop
  | .jnull => True
  | .jtrue => True
  | .jfalse => True
  | .jnum l => NumLexP l
  | .jstr l => strOK l = true
  | .jarr xs => ValidL xs
  | .jobj ms => ValidM ms

/-- Well-formedness of a list of array elements. -/
def ValidL : List Json → Prop
  | [] => True
  | x :: xs => ValidJ x ∧ ValidL xs

/-- Well-formedness of a list of object members. -/
def ValidM : List (List Nat × Json) → Prop
  | [] => True
  | (k, v) :: ms => strOK k = true ∧ ValidJ v ∧ ValidM ms

end

mutual

/-- Recursion-depth requirement of a value for the fueled parser. -/
def szJ : Json → Nat
  | .jnull => 1
  | .jtrue => 1
  | .jfalse => 1
  | .jnum _ => 1
  | .jstr _ => 1
  | .jarr xs => 1 + szL xs
  | .jobj ms => 1 + szM ms

/-- Recursion-depth requirement of a nonempty element list. -/
def szL : List Json → Nat
  | [] => 0
  | x :: xs => 1 + szJ x + szL xs

/-- Recursion-depth requirement of a nonempty member list. -/
def szM : List (List Nat × Json) → Nat
  | [] => 0
  | (_, v) :: ms => 1 + szJ v + szM ms

end

mutual

/-- Parse one JSON value starting at the first non-whitespace byte.
The fuel argument bounds the recursion depth; every caller supplies more
fuel than any input can consume, so the bound is never the reason a
parse fails. -/
def parseVal : Nat → List Nat → Option (Json × List Nat)
  | 0, _ => none
  | fuel+1, s =>
    match s with
    | 110 :: 117 :: 108 :: 108 :: r => some (.jnull, r)
    | 116 :: 114 :: 117 :: 101 :: r => some (.jtrue, r)
    | 102 :: 97 :: 108 :: 115 :: 101 :: r => some (.jfalse, r)
    | 34 :: cs =>
      match parseStr cs with
      | some (l, r) => some (.jstr l, r)
      | none => none
    | 91 :: cs =>
      match skipWS cs with
      | 93 :: r => some (.jarr [], r)
      | s2 =>
        match parseElems fuel s2 with
        | some (xs, r) => some (.jarr xs, r)
        | none => none
    | 123 :: cs =>
      match skipWS cs with
      | 125 :: r => some (.jobj [], r)
      | s2 =>
        match parseMems fuel s2 with
        | some (ms, r) => some (.jobj ms, r)
        | none => none
    | s2 =>
      match parseNum s2 with
      | some (l, r) => some (.jnum l, r)
      | none => none

/-- Parse the elements of a nonempty array, starting at the first
non-whitespace byte of the first element, up to and including the
closing bracket. -/
def parseElems : Nat → List Nat → Option (List Json × List Nat)
  | 0, _ => none
  | fuel+1, s =>
    match parseVal fuel s with
    | none => none
    | some (v, r) =>
      match skipWS r with
      | 44 :: r2 =>
        match parseElems fuel (skipWS r2) with
        | some (xs, r3) => some (v :: xs, r3)
        | none => none
      | 93 :: r2 => some ([v], r2)
      | _ => none

/-- Parse the members of a nonempty object, starting at the opening
quote of the first key, up to and including the closing brace. -/
def parseMems : Nat → List Nat → Option (List (List Nat × Json) × List Nat)
  | 0, _ => none
  | fuel+1, s =>
    match s with
    | 34 :: cs =>
      match parseStr cs with
      | none => none
      | some (k, r) =>
        match skipWS r with
        | 58 :: r2 =>
          match parseVal fuel (skipWS r2) with
          | none => none
          | some (v, r3) =>
            match skipWS r3 with
            | 44 :: r4 =>
              match parseMems fuel (skipWS r4) with
              | some (ms, r5) => some ((k, v) :: ms, r5)
              | none => none
            | 125 :: r4 => some ([(k, v)], r4)
            | _ => none
        | _ => none
    | _ => none

end

/-- Model of encoding/json Compact: accept exactly one JSON value
surrounded by optional insignificant whitespace and return it
re-serialized with that whitespace removed; return none exactly when
the scanner reports a syntax error. -/
def jsonCompact (body : List Nat) : Option (List Nat) :=
  match parseVal (body.length + 1) (skipWS body) with
  | some (v, r) =>
    match skipWS r with
    | [] => some (serialize v)
    | _ => none
  | none => none

theorem parseSound (fuel : Nat) :
    (∀ s v r, parseVal fuel s = some (v, r) → ValidJ v)
    ∧ (∀ s xs r, parseElems fuel s = some (xs, r) → ValidL xs)
    ∧ (∀ s ms r, parseMems fuel s = some (ms, r) → ValidM ms) := by
  induction fuel with
  | zero =>
    refine ⟨?_, ?_, ?_⟩
    · intro s v r h
      simp [parseVal] at h
    · intro s xs r h
      simp [parseElems] at h
    · intro s ms r h
      simp [parseMems] at h
  | succ fuel ih =>
    obtain ⟨ihv, ihe, ihm⟩ := ih
    refine ⟨?_, ?_, ?_⟩
    · intro s v r h
      simp only [parseVal] at h
      split at h
      · simp only [Option.some.injEq, Prod.mk.injEq] at h
        rw [← h.1]
        trivial
      · simp only [Option.some.injEq, Prod.mk.injEq] at h
        rw [← h.1]
        trivial
      · simp only [Option.some.injEq, Prod.mk.injEq] at h
        rw [← h.1]
        trivial
      · split at h
        · rename_i l r2 hps
          simp only [Option.some.injEq, Prod.mk.injEq] at h
          rw [← h.1]
          exact (parseStr_sound hps).1
        · exact absurd h (by simp)
      · split at h
        · simp only [Option.some.injEq, Prod.mk.injEq] at h
          rw [← h.1]
          trivial
        · split at h
          · rename_i xs r2 hpe
            simp only [Option.some.injEq, Prod.mk.injEq] at h
            rw [← h.1]
            exact ihe _ _ _ hpe
          · exact absurd h (by simp)
      · split at h
        · simp only [Option.some.injEq, Prod.mk.injEq] at h
          rw [← h.1]
          trivial
        · split at h
          · rename_i ms r2 hpm
            simp only [Option.some.injEq, Prod.mk.injEq] at h
            rw [← h.1]
            exact ihm _ _ _ hpm
          · exact absurd h (by simp)
      · split at h
        · rename_i l r2 hpn
          simp only [Option.some.injEq, Prod.mk.injEq] at h
          rw [← h.1]
          exact (parseNum_sound hpn).1
        · exact absurd h (by simp)
    · intro s xs r h
      simp only [parseElems] at h
      split at h
      · exact absurd h (by simp)
      · rename_i v r1 hpv
        split at h
        · split at h
          · rename_i xs2 r3 hpe
            simp only [Option.some.injEq, Prod.mk.injEq] at h
            rw [← h.1]
            exact ⟨ihv _ _ _ hpv, ihe _ _ _ hpe⟩
          · exact absurd h (by simp)
        · simp only [Option.some.injEq, Prod.mk.injEq] at h
          rw [← h.1]
          exact ⟨ihv _ _ _ hpv, trivial⟩
        · exact absurd h (by simp)
    · intro s ms r h
      simp only [parseMems] at h
      split at h
      · split at h
        · exact absurd h (by simp)
        · rename_i k r1 hpk
          split at h
          · split at h
            · exact absurd h (by simp)
            · rename_i v r3 hpv
              split at h
              · split at h
                · rename_i ms2 r5 hpm
                  simp only [Option.some.injEq, Prod.mk.injEq] at h
                  rw [← h.1]
                  exact ⟨(parseStr_sound hpk).1, ihv _ _ _ hpv, ihm _ _ _ hpm⟩
                · exact absurd h (by simp)
              · simp only [Option.some.injEq, Prod.mk.injEq] at h
                rw [← h.1]
                exact ⟨(parseStr_sound hpk).1, ihv _ _ _ hpv, trivial⟩
              · exact absurd h (by simp)
          · exact absurd h (by simp)
      · exact absurd h (by simp)

theorem skipWS_nonWS {c : Nat} {t : List Nat} (h : isWS c = false) :
    skipWS (c :: t) = c :: t := by
  simp [skipWS, h]

theorem NumLexP_head {l : List Nat} (hl : NumLexP l) :
    ∃ c t, l = c :: t ∧ (c = 45 ∨ (48 ≤ c ∧ c ≤ 57)) := by
  obtain ⟨sg, i, f, e, hsg, hi, hf, he, rfl⟩ := hl
  rcases hsg with rfl | rfl
  · rcases hi with rfl | ⟨c, ds, rfl, hc1, hc2, hds⟩
    · exact ⟨48, f ++ e, by simp, Or.inr (by omega)⟩
    · exact ⟨c, ds ++ (f ++ e), by simp, Or.inr (by omega)⟩
  · exact ⟨45, i ++ (f ++ e), by simp, Or.inl rfl⟩

theorem NumLexP_ne_nil {l : List Nat} (hl : NumLexP l) : l ≠ [] := by
  obtain ⟨c, t, rfl, _⟩ := NumLexP_head hl
  simp

theorem digits_ge32 {ds : List Nat} (h : ds.all isDigit = true) :
    ds.all (fun c => decide (32 ≤ c)) = true := by
  induction ds with
  | nil => rfl
  | cons d ds ih =>
    simp only [List.all_cons, Bool.and_eq_true] at h ⊢
    refine ⟨?_, ih h.2⟩
    have := h.1
    simp only [isDigit, Bool.and_eq_true, decide_eq_true_eq] at this
    simp only [decide_eq_true_eq]
    omega

theorem NumLexP_ge32 {l : List Nat} (hl : NumLexP l) :
    l.all (fun c => decide (32 ≤ c)) = true := by
  obtain ⟨sg, i, f, e, hsg, hi, hf, he, rfl⟩ := hl
  simp only [List.all_append, Bool.and_eq_true]
  refine ⟨?_, ?_, ?_, ?_⟩
  · rcases hsg with rfl | rfl <;> simp
  · rcases hi with rfl | ⟨c, ds, rfl, hc1, hc2, hds⟩
    · simp
    · simp only [List.all_cons, Bool.and_eq_true]
      exact ⟨by simp only [decide_eq_true_eq]; omega, digits_ge32 hds⟩
  · rcases hf with rfl | ⟨d, ds, rfl, hd, hds⟩
    · simp
    · simp only [List.all_cons, Bool.and_eq_true]
      refine ⟨by simp, ?_, digits_ge32 hds⟩
      have := hd
      simp only [isDigit, Bool.and_eq_true, decide_eq_true_eq] at this
      simp only [decide_eq_true_eq]
      omega
  · rcases he with rfl | ⟨ec, sg2, d, ds, hec, hsg2, rfl, hd, hds⟩
    · simp
    · simp only [List.all_cons, List.all_append, Bool.and_eq_true]
      have hd32 : decide (32 ≤ d) = true := by
        simp only [isDigit, Bool.and_eq_true, decide_eq_true_eq] at hd
        simp only [decide_eq_true_eq]
        omega
      refine ⟨by rcases hec with rfl | rfl <;> simp, ?_, ?_⟩
      · rcases hsg2 with rfl | rfl | rfl <;> simp
      · exact ⟨hd32, digits_ge32 hds⟩

theorem serialize_head {v : Json} (hv : ValidJ v) :
    ∃ c t, serialize v = c :: t ∧ isWS c = false ∧ c ≠ 93 ∧ c ≠ 125 ∧ c ≠ 44 := by
  cases v with
  | jnull => exact ⟨110, _, rfl, by decide, by decide, by decide, by decide⟩
  | jtrue => exact ⟨116, _, rfl, by decide, by decide, by decide, by decide⟩
  | jfalse => exact ⟨102, _, rfl, by decide, by decide, by decide, by decide⟩
  | jnum l =>
    simp only [ValidJ] at hv
    obtain ⟨c, t, rfl, hc⟩ := NumLexP_head hv
    refine ⟨c, t, rfl, ?_, ?_, ?_, ?_⟩
    · simp only [isWS, Bool.or_eq_false_iff, beq_eq_false_iff_ne]
      omega
    · omega
    · omega
    · omega
  | jstr l => exact ⟨34, _, rfl, by decide, by decide, by decide, by decide⟩
  | jarr xs =>
    cases xs with
    | nil => exact ⟨91, _, rfl, by decide, by decide, by decide, by decide⟩
    | cons x xs => exact ⟨91, _, rfl, by decide, by decide, by decide, by decide⟩
  | jobj ms =>
    cases ms with
    | nil => exact ⟨123, _, rfl, by decide, by decide, by decide, by decide⟩
    | cons m ms => exact ⟨123, _, rfl, by decide, by decide, by decide, by decide⟩

theorem szJ_pos (v : Json) : 1 ≤ szJ v := by
  cases v with
  | jarr xs => simp [szJ]
  | jobj ms => simp [szJ]
  | jnull => simp [szJ]
  | jtrue => simp [szJ]
  | jfalse => simp [szJ]
  | jnum l => simp [szJ]
  | jstr l => simp [szJ]

theorem szBound (n : Nat) :
    (∀ v : Json, szJ v ≤ n → ValidJ v → szJ v ≤ (serialize v).length)
    ∧ (∀ (x : Json) (xs : List Json), szL (x :: xs) ≤ n → ValidL (x :: xs) →
        szL (x :: xs) ≤ (serialize x ++ serTail xs).length + 1)
    ∧ (∀ (k : List Nat) (v : Json) (ms : List (List Nat × Json)),
        szM ((k, v) :: ms) ≤ n → ValidM ((k, v) :: ms) →
        szM ((k, v) :: ms) ≤ (serMem (k, v) ++ serMemTail ms).length + 1) := by
  induction n with
  | zero =>
    refine ⟨?_, ?_, ?_⟩
    · intro v hn _
      exact absurd (Nat.le_trans (szJ_pos v) hn) (by omega)
    · intro x xs hn _
      simp only [szL] at hn
      omega
    · intro k v ms hn _
      simp only [szM] at hn
      omega
  | succ n ih =>
    obtain ⟨ihA, ihB, ihC⟩ := ih
    refine ⟨?_, ?_, ?_⟩
    · intro v hn hv
      cases v with
      | jnull => simp [szJ, serialize]
      | jtrue => simp [szJ, serialize]
      | jfalse => simp [szJ, serialize]
      | jnum l =>
        simp only [ValidJ] at hv
        obtain ⟨c, t, rfl, _⟩ := NumLexP_head hv
        simp [szJ, serialize]
      | jstr l => simp [szJ, serialize]
      | jarr xs =>
        cases xs with
        | nil => simp [szJ, szL, serialize]
        | cons x xs =>
          simp only [szJ] at hn ⊢
          simp only [ValidJ] at hv
          have hb := ihB x xs (by simp only [szL] at hn ⊢; omega) hv
          simp only [serialize, List.length_cons, List.length_append] at hb ⊢
          omega
      | jobj ms =>
        cases ms with
        | nil => simp [szJ, szM, serialize]
        | cons m ms =>
          obtain ⟨k, v⟩ := m
          simp only [szJ] at hn ⊢
          simp only [ValidJ] at hv
          have hc := ihC k v ms (by simp only [szM] at hn ⊢; omega) hv
          simp only [serialize, List.length_cons, List.length_append] at hc ⊢
          omega
    · intro x xs hn hv
      simp only [ValidL] at hv
      simp only [szL] at hn ⊢
      have ha := ihA x (by omega) hv.1
      cases xs with
      | nil =>
        simp only [szL, serTail, List.length_append, List.length_nil]
        omega
      | cons y ys =>
        have hb := ihB y ys (by simp only [szL] at hn ⊢; omega) hv.2
        simp only [szL] at hb ⊢
        simp only [serTail, List.length_append, List.length_cons] at hb ⊢
        omega
    · intro k v ms hn hv
      simp only [ValidM] at hv
      simp only [szM] at hn ⊢
      have ha := ihA v (by omega) hv.2.1
      cases ms with
      | nil =>
        simp only [szM, serMemTail, serMem, List.length_append, List.length_nil,
          List.length_cons]
        omega
      | cons m2 ms2 =>
        obtain ⟨k2, v2⟩ := m2
        have hc := ihC k2 v2 ms2 (by simp only [szM] at hn ⊢; omega) hv.2.2
        simp only [szM] at hc ⊢
        simp only [serMemTail, serMem, List.length_append, List.length_cons] at hc ⊢
        omega

theorem serialize_ge32 (n : Nat) :
    (∀ v : Json, szJ v ≤ n → ValidJ v →
      (serialize v).all (fun c => decide (32 ≤ c)) = true)
    ∧ (∀ xs : List Json, szL xs ≤ n → ValidL xs →
      (serTail xs).all (fun c => decide (32 ≤ c)) = true)
    ∧ (∀ ms : List (List Nat × Json), szM ms ≤ n → ValidM ms →
      (serMemTail ms).all (fun c => decide (32 ≤ c)) = true) := by
  induction n with
  | zero =>
    refine ⟨?_, ?_, ?_⟩
    · intro v hn _
      exact absurd (Nat.le_trans (szJ_pos v) hn) (by omega)
    · intro xs hn _
      cases xs with
      | nil => rfl
      | cons x xs => simp only [szL] at hn; omega
    · intro ms hn _
      cases ms with
      | nil => rfl
      | cons m ms =>
        obtain ⟨k, v⟩ := m
        simp only [szM] at hn
        omega
  | succ n ih =>
    obtain ⟨ihA, ihB, ihC⟩ := ih
    refine ⟨?_, ?_, ?_⟩
    · intro v hn hv
      cases v with
      | jnull => rfl
      | jtrue => rfl
      | jfalse => rfl
      | jnum l =>
        simp only [ValidJ] at hv
        exact NumLexP_ge32 hv
      | jstr l =>
        simp only [ValidJ] at hv
        simp only [serialize, List.all_cons, List.all_append, Bool.and_eq_true]
        exact ⟨by simp, strOK_ge32 hv, by simp⟩
      | jarr xs =>
        cases xs with
        | nil => rfl
        | cons x xs =>
          simp only [ValidJ, ValidL] at hv
          simp only [szJ, szL] at hn
          simp only [serialize, List.all_cons, List.all_append, Bool.and_eq_true]
          exact ⟨by simp, ihA x (by omega) hv.1, ihB xs (by omega) hv.2, by simp⟩
      | jobj ms =>
        cases ms with
        | nil => rfl
        | cons m ms =>
          obtain ⟨k, v⟩ := m
          simp only [ValidJ, ValidM] at hv
          simp only [szJ, szM] at hn
          have hk := strOK_ge32 hv.1
          have hvv := ihA v (by omega) hv.2.1
          have hms := ihC ms (by omega) hv.2.2
          simp [serialize, serMem, List.all_cons, List.all_append, hk, hvv, hms]
    · intro xs hn hv
      cases xs with
      | nil => rfl
      | cons x xs =>
        simp only [ValidL] at hv
        simp only [szL] at hn
        simp only [serTail, List.all_cons, List.all_append, Bool.and_eq_true]
        exact ⟨by simp, ihA x (by omega) hv.1, ihB xs (by omega) hv.2⟩
    · intro ms hn hv
      cases ms with
      | nil => rfl
      | cons m ms =>
        obtain ⟨k, v⟩ := m
        simp only [ValidM] at hv
        simp only [szM] at hn
        have hk := strOK_ge32 hv.1
        have hvv := ihA v (by omega) hv.2.1
        have hms := ihC ms (by omega) hv.2.2
        simp [serMemTail, serMem, List.all_cons, List.all_append, hk, hvv, hms]

theorem parseRT (n : Nat) :
    (∀ (v : Json) (rest : List Nat), szJ v ≤ n → ValidJ v → delimH rest = true →
      ∀ fuel, szJ v ≤ fuel → parseVal fuel (serialize v ++ rest) = some (v, rest))
    ∧ (∀ (x : Json) (xs : List Json) (rest : List Nat), szL (x :: xs) ≤ n →
        ValidL (x :: xs) → delimH rest = true → ∀ fuel, szL (x :: xs) ≤ fuel →
        parseElems fuel ((serialize x ++ serTail xs) ++ 93 :: rest) = some (x :: xs, rest))
    ∧ (∀ (k : List Nat) (v : Json) (ms : List (List Nat × Json)) (rest : List Nat),
        szM ((k, v) :: ms) ≤ n → ValidM ((k, v) :: ms) → delimH rest = true →
        ∀ fuel, szM ((k, v) :: ms) ≤ fuel →
        parseMems fuel ((serMem (k, v) ++ serMemTail ms) ++ 125 :: rest) =
          some ((k, v) :: ms, rest)) := by
  induction n with
  | zero =>
    refine ⟨?_, ?_, ?_⟩
    · intro v rest hn _ _ _ _
      exact absurd (Nat.le_trans (szJ_pos v) hn) (by omega)
    · intro x xs rest hn _ _ _ _
      simp only [szL] at hn
      omega
    · intro k v ms rest hn _ _ _ _
      simp only [szM] at hn
      omega
  | succ n ih =>
    obtain ⟨ihA, ihB, ihC⟩ := ih
    refine ⟨?_, ?_, ?_⟩
    · intro v rest hn hv hrest fuel hfuel
      obtain ⟨m, rfl⟩ : ∃ m, fuel = m + 1 :=
        ⟨fuel - 1, by have := szJ_pos v; omega⟩
      cases v with
      | jnull => rfl
      | jtrue => rfl
      | jfalse => rfl
      | jstr l =>
        simp only [ValidJ] at hv
        have hps := @parseStr_rt l rest hv
        simp only [serialize, List.cons_append, List.append_assoc, List.singleton_append]
        simp [parseVal, hps]
      | jnum l =>
        simp only [ValidJ] at hv
        have hpn := parseNum_rt hv hrest
        obtain ⟨c, t, hl, hc⟩ := NumLexP_head hv
        subst hl
        simp only [serialize, List.cons_append]
        simp only [parseVal]
        split
        · rename_i heq
          simp only [List.cons.injEq] at heq
          omega
        · rename_i heq
          simp only [List.cons.injEq] at heq
          omega
        · rename_i heq
          simp only [List.cons.injEq] at heq
          omega
        · rename_i heq
          simp only [List.cons.injEq] at heq
          omega
        · rename_i heq
          simp only [List.cons.injEq] at heq
          omega
        · rename_i heq
          simp only [List.cons.injEq] at heq
          omega
        · rw [show c :: (t ++ rest) = (c :: t) ++ rest from rfl, hpn]
      | jarr xs =>
        cases xs with
        | nil => rfl
        | cons x xs =>
          simp only [ValidJ, ValidL] at hv
          simp only [szJ, szL] at hn hfuel
          obtain ⟨c, t, hser, hcws, hc93, hc125, hc44⟩ := serialize_head hv.1
          have hpe := ihB x xs rest (by simp only [szL]; omega) hv hrest m (by
            simp only [szL]
            omega)
          simp only [serialize, List.cons_append, List.append_assoc,
            List.singleton_append, List.nil_append]
          simp only [parseVal]
          rw [hser]
          simp only [List.cons_append]
          rw [skipWS_nonWS hcws]
          split
          · rename_i heq
            simp only [List.cons.injEq] at heq
            exact absurd heq.1 hc93
          · rw [show c :: (t ++ (serTail xs ++ 93 :: rest)) =
              (serialize x ++ serTail xs) ++ 93 :: rest by rw [hser]; simp]
            rw [hpe]
      | jobj ms =>
        cases ms with
        | nil => rfl
        | cons mem ms =>
          obtain ⟨k, v⟩ := mem
          simp only [ValidJ] at hv
          simp only [szJ] at hn hfuel
          have hpm := ihC k v ms rest (by
            simp only [szM] at hn ⊢
            omega) hv hrest m (by
            simp only [szM] at hfuel ⊢
            omega)
          simp only [serialize, serMem, List.cons_append, List.append_assoc,
            List.singleton_append, List.nil_append]
          simp only [parseVal]
          rw [skipWS_nonWS (by decide)]
          split
          · rename_i heq
            simp only [List.cons.injEq] at heq
            omega
          · rw [show (34 : Nat) :: (k ++ (34 :: (58 :: (serialize v ++
                (serMemTail ms ++ 125 :: rest))))) =
                (serMem (k, v) ++ serMemTail ms) ++ 125 :: rest by simp [serMem]]
            rw [hpm]
    · intro x xs rest hn hv hrest fuel hfuel
      obtain ⟨m, rfl⟩ : ∃ m, fuel = m + 1 :=
        ⟨fuel - 1, by simp only [szL] at hfuel; omega⟩
      simp only [ValidL] at hv
      simp only [szL] at hn hfuel
      have hX : delimH (serTail xs ++ 93 :: rest) = true := by
        cases xs with
        | nil => rfl
        | cons y ys => rfl
      have hpv := ihA x (serTail xs ++ 93 :: rest) (by omega) hv.1 hX m (by omega)
      simp only [parseElems]
      rw [show (serialize x ++ serTail xs) ++ 93 :: rest =
        serialize x ++ (serTail xs ++ 93 :: rest) by simp]
      rw [hpv]
      cases xs with
      | nil =>
        simp only [serTail, List.nil_append]
        rw [skipWS_nonWS (by decide)]
      | cons y ys =>
        obtain ⟨c, t, hser, hcws, hc93, hc125, hc44⟩ := serialize_head hv.2.1
        have hpe2 := ihB y ys rest (by
          simp only [szL] at hn ⊢
          omega) hv.2 hrest m (by
          simp only [szL] at hfuel ⊢
          omega)
        simp only [serTail, List.cons_append, List.append_assoc]
        rw [skipWS_nonWS (by decide)]
        rw [hser]
        simp only [List.cons_append]
        rw [skipWS_nonWS hcws]
        rw [show c :: (t ++ (serTail ys ++ 93 :: rest)) =
          (serialize y ++ serTail ys) ++ 93 :: rest by rw [hser]; simp]
        rw [hpe2]
    · intro k v ms rest hn hv hrest fuel hfuel
      obtain ⟨m, rfl⟩ : ∃ m, fuel = m + 1 :=
        ⟨fuel - 1, by simp only [szM] at hfuel; omega⟩
      simp only [ValidM] at hv
      simp only [szM] at hn hfuel
      have hY : delimH (serMemTail ms ++ 125 :: rest) = true := by
        cases ms with
        | nil => rfl
        | cons m2 ms2 => rfl
      have hpk := @parseStr_rt k (58 :: (serialize v ++ (serMemTail ms ++ 125 :: rest))) hv.1
      have hpv := ihA v (serMemTail ms ++ 125 :: rest) (by omega) hv.2.1 hY m (by omega)
      obtain ⟨c, t, hser, hcws, hc93, hc125, hc44⟩ := serialize_head hv.2.1
      simp only [serMem, List.cons_append, List.append_assoc, List.singleton_append,
        List.nil_append]
      simp only [parseMems]
      rw [hpk]
      dsimp only
      rw [skipWS_nonWS (by decide)]
      rw [hser]
      simp only [List.cons_append]
      rw [skipWS_nonWS hcws]
      rw [show c :: (t ++ (serMemTail ms ++ 125 :: rest)) =
        serialize v ++ (serMemTail ms ++ 125 :: rest) by rw [hser]; simp]
      rw [hpv]
      cases ms with
      | nil =>
        simp only [serMemTail, List.nil_append]
        rw [skipWS_nonWS (by decide)]
      | cons m2 ms2 =>
        obtain ⟨k2, v2⟩ := m2
        have hpm2 := ihC k2 v2 ms2 rest (by
          simp only [szM] at hn ⊢
          omega) hv.2.2 hrest m (by
          simp only [szM] at hfuel ⊢
          omega)
        simp only [serMemTail, List.cons_append, List.append_assoc]
        split
        · rename_i r4 heq
          injection heq with h1 h2
          subst h2
          simp only [serMem, List.cons_append, List.append_assoc]
          rw [skipWS_nonWS (by decide)]
          rw [show (34 : Nat) :: (k2 ++ (34 :: (58 :: (serialize v2 ++
              (serMemTail ms2 ++ 125 :: rest))))) =
              (serMem (k2, v2) ++ serMemTail ms2) ++ 125 :: rest by simp [serMem]]
          rw [hpm2]
        · rename_i r4 heq
          injection heq with h1 h2
          exact absurd h1 (by decide)
        · rename_i hno1 hno2
          exact absurd rfl (fun h => hno1 _ h)

/-- A successful compaction yields the serialization of a valid tree. -/
theorem jsonCompact_some {b c : List Nat} (h : jsonCompact b = some c) :
    ∃ v : Json, ValidJ v ∧ c = serialize v := by
  unfold jsonCompact at h
  split at h
  · rename_i v r hpv
    split at h
    · simp only [Option.some.injEq] at h
      exact ⟨v, (parseSound _).1 _ _ _ hpv, h.symm⟩
    · simp at h
  · simp at h

/-- The serialization of a valid tree is a fixed point of compaction. -/
theorem jsonCompact_fix {v : Json} (hv : ValidJ v) :
    jsonCompact (serialize v) = some (serialize v) := by
  obtain ⟨c, t, hser, hcws, hc93, hc125, hc44⟩ := serialize_head hv
  have hb := (szBound (szJ v)).1 v (Nat.le_refl _) hv
  have hrt := (parseRT (szJ v)).1 v [] (Nat.le_refl _) hv rfl
    ((serialize v).length + 1) (by omega)
  rw [List.append_nil] at hrt
  unfold jsonCompact
  rw [hser, skipWS_nonWS hcws, ← hser, hrt]
  rfl

/-- Compaction is idempotent: compacting an already-compact line is the
identity. -/
theorem jsonCompact_idem {b c : List Nat} (h : jsonCompact b = some c) :
    jsonCompact c = some c := by
  obtain ⟨v, hv, rfl⟩ := jsonCompact_some h
  exact jsonCompact_fix hv

/-- A compact line contains no newline byte. -/
theorem jsonCompact_no_newline {b c : List Nat} (h : jsonCompact b = some c) :
    ¬ 10 ∈ c := by
  obtain ⟨v, hv, rfl⟩ := jsonCompact_some h
  have hall := (serialize_ge32 (szJ v)).1 v (Nat.le_refl _) hv
  rw [List.all_eq_true] at hall
  intro hmem
  have h10 := hall 10 hmem
  simp at h10

/-- An HTTP request as the handler sees it: the method, the value of the
Content-Encoding header (the empty byte string when the header is
absent, as Header.Get reports it), and the raw body bytes. -/
structure Request where
  method : List Nat
  contentEncoding : List Nat
  body : List Nat

/-- An HTTP response: status code, final Content-Type header value, and
body bytes. -/
structure Response where
  status : Nat
  contentType : List Nat
  body : List Nat

/-- ASCII lower-casing of a byte string, the fragment of strings.ToLower
that header values exercise. -/
def toLowerBytes (s : List Nat) : List Nat :=
  s.map (fun c => if 65 ≤ c ∧ c ≤ 90 then c + 32 else c)

/-- Does the needle occur at the start of the haystack. -/
def startsWithB : List Nat → List Nat → Bool
  | [], _ => true
  | _ :: _, [] => false
  | n :: ns, c :: cs => (n == c) && startsWithB ns cs

/-- Substring containment, as strings.Contains. -/
def containsB (needle : List Nat) : List Nat → Bool
  | [] => startsWithB needle []
  | c :: cs => startsWithB needle (c :: cs) || containsB needle cs

/-- Bytes of the string gzip. -/
def gzipBytes : List Nat := [103, 122, 105, 112]

/-- The Content-Encoding test of the handler:
strings.Contains(strings.ToLower(header), gzip). -/
def hasGzipEnc (enc : List Nat) : Bool := containsB gzipBytes (toLowerBytes enc)

/-- The two failure modes of the gzip path in the handler:
gzip.NewReader rejecting the stream header, and io.ReadAll failing while
draining the decompressed stream. -/
inductive GzipErr where
  | newReaderFailed
  | readFailed

/-- Bytes of the success acknowledgement body. -/
def successBody : List Nat :=
  [123, 34, 115, 116, 97, 116, 117, 115, 34, 58, 34, 115, 117, 99, 99, 101, 115, 115,
   34, 125]

/-- Bytes of the health check body. -/
def healthyBody : List Nat :=
  [123, 34, 115, 116, 97, 116, 117, 115, 34, 58, 34, 104, 101, 97, 108, 116, 104, 121,
   34, 125]

/-- Bytes of the invalid-JSON error body. -/
def invalidJsonMsg : List Nat :=
  [123, 34, 101, 114, 114, 111, 114, 34, 58, 34, 73, 110, 118, 97, 108, 105, 100, 32,
   74, 83, 79, 78, 32, 102, 111, 114, 109, 97, 116, 34, 125]

/-- Bytes of the gzip-reader error body. -/
def gzipReaderMsg : List Nat :=
  [123, 34, 101, 114, 114, 111, 114, 34, 58, 34, 70, 97, 105, 108, 101, 100, 32, 116,
   111, 32, 99, 114, 101, 97, 116, 101, 32, 103, 122, 105, 112, 32, 114, 101, 97, 100,
   101, 114, 34, 125]

/-- Bytes of the body-read error body. -/
def readBodyMsg : List Nat :=
  [123, 34, 101, 114, 114, 111, 114, 34, 58, 34, 70, 97, 105, 108, 101, 100, 32, 116,
   111, 32, 114, 101, 97, 100, 32, 114, 101, 113, 117, 101, 115, 116, 32, 98, 111, 100,
   121, 34, 125]

/-- Bytes of the application/json content type. -/
def appJsonCT : List Nat :=
  [97, 112, 112, 108, 105, 99, 97, 116, 105, 111, 110, 47, 106, 115, 111, 110]

/-- Bytes of the content type that net/http Error sets. -/
def textPlainCT : List Nat :=
  [116, 101, 120, 116, 47, 112, 108, 97, 105, 110, 59, 32, 99, 104, 97, 114, 115, 101,
   116, 61, 117, 116, 102, 45, 56]

/-- Model of net/http Error: it replaces the Content-Type header with
text/plain; charset=utf-8 and writes the message followed by one
newline as the response body. -/
def httpError (msg : List Nat) (status : Nat) : Response :=
  ⟨status, textPlainCT, msg ++ [10]⟩

/-- The validate-compact-log-respond tail of the handler (main.go,
json.Compact onwards), given the fully read body bytes.  The first
component is the response; the second is the byte stream written to
standard output, where fmt.Println appends one newline to the compacted
line. -/
def processBody (body : List Nat) : Response × List Nat :=
  match jsonCompact body with
  | none => (httpError invalidJsonMsg 400, [])
  | some c => (⟨200, appJsonCT, successBody⟩, c ++ [10])

/-- The log webhook handler, createLogHandler in main.go.  The handler
sets Content-Type application/json first; on the error paths http.Error
overwrites it.  Gzip decompression is an external library call and is a
parameter: gunzip stands for gzip.NewReader followed by io.ReadAll,
returning the decompressed bytes or one of the two errors the code
distinguishes.  The Content-Encoding header triggers it via a
case-insensitive substring match for gzip.  The request method is never
inspected. -/
def createLogHandler (gunzip : List Nat → Except GzipErr (List Nat)) (r : Request) :
    Response × List Nat :=
  if hasGzipEnc r.contentEncoding then
    match gunzip r.body with
    | Except.error GzipErr.newReaderFailed => (httpError gzipReaderMsg 400, [])
    | Except.error GzipErr.readFailed => (httpError readBodyMsg 400, [])
    | Except.ok b => processBody b
  else processBody r.body

/-- The health check handler registered on the /health path in main:
it ignores the request entirely. -/
def healthHandler (_r : Request) : Response := ⟨200, appJsonCT, healthyBody⟩

/-- C1: for every well-formed JSON request body (one the compactor
accepts), submitted without gzip encoding, the handler responds 200 with
body success and content type application/json, and writes exactly one
line to standard output: the whitespace-minimal serialization followed
by a single newline, with no other newline byte in it. -/
theorem c1_valid_json_success :
    ∀ (g : List Nat → Except GzipErr (List Nat)) (m enc body c : List Nat),
      hasGzipEnc enc = false → jsonCompact body = some c →
      createLogHandler g ⟨m, enc, body⟩ = (⟨200, appJsonCT, successBody⟩, c ++ [10])
        ∧ ¬ 10 ∈ c := by
  intro g m enc body c henc hc
  refine ⟨?_, jsonCompact_no_newline hc⟩
  simp [createLogHandler, henc, processBody, hc]

/-- Witness for C1 on the concrete body with a space in it. -/
theorem c1_witness :
    hasGzipEnc [] = false
    ∧ jsonCompact [123, 34, 97, 34, 58, 32, 49, 125] = some [123, 34, 97, 34, 58, 49, 125]
    ∧ createLogHandler (fun _ => Except.error GzipErr.newReaderFailed)
        ⟨[80, 79, 83, 84], [], [123, 34, 97, 34, 58, 32, 49, 125]⟩ =
      (⟨200, appJsonCT, successBody⟩, [123, 34, 97, 34, 58, 49, 125] ++ [10])
    ∧ ¬ 10 ∈ [123, 34, 97, 34, 58, 49, 125] := by
  have h := c1_valid_json_success (fun _ => Except.error GzipErr.newReaderFailed)
    [80, 79, 83, 84] [] [123, 34, 97, 34, 58, 32, 49, 125] [123, 34, 97, 34, 58, 49, 125]
    rfl rfl
  exact ⟨rfl, rfl, h.1, h.2⟩

/-- C2: for every request body that is not well-formed JSON, including
the empty body, the handler (without gzip encoding) responds 400 with
the fixed invalid-JSON message and writes nothing to standard output. -/
theorem c2_invalid_json_rejected :
    ∀ (g : List Nat → Except GzipErr (List Nat)) (m enc body : List Nat),
      hasGzipEnc enc = false → jsonCompact body = none →
      createLogHandler g ⟨m, enc, body⟩ = (httpError invalidJsonMsg 400, []) := by
  intro g m enc body henc hc
  simp [createLogHandler, henc, processBody, hc]

/-- Witness for C2 on the empty body. -/
theorem c2_witness :
    hasGzipEnc [] = false
    ∧ jsonCompact [] = none
    ∧ createLogHandler (fun _ => Except.error GzipErr.newReaderFailed)
        ⟨[80, 79, 83, 84], [], []⟩ = (httpError invalidJsonMsg 400, []) := by
  have h := c2_invalid_json_rejected (fun _ => Except.error GzipErr.newReaderFailed)
    [80, 79, 83, 84] [] [] rfl rfl
  exact ⟨rfl, rfl, h⟩

/-- C3: a gzip-compressed valid-JSON body submitted with a
Content-Encoding value containing gzip produces exactly the same
response and log output as the uncompressed body submitted without the
header. -/
theorem c3_gzip_equivalent :
    ∀ (g : List Nat → Except GzipErr (List Nat)) (m enc z b c : List Nat),
      hasGzipEnc enc = true → g z = Except.ok b → jsonCompact b = some c →
      createLogHandler g ⟨m, enc, z⟩ = createLogHandler g ⟨m, [], b⟩ := by
  intro g m enc z b c henc hgz _
  have h0 : hasGzipEnc [] = false := rfl
  simp [createLogHandler, henc, hgz, h0]

/-- Witness for C3 with a concrete decompressor and compressed body. -/
theorem c3_witness :
    hasGzipEnc [103, 122, 105, 112] = true
    ∧ (fun z => if z = [31, 139] then Except.ok [123, 125]
        else Except.error GzipErr.newReaderFailed) [31, 139] = Except.ok [123, 125]
    ∧ jsonCompact [123, 125] = some [123, 125]
    ∧ createLogHandler (fun z => if z = [31, 139] then Except.ok [123, 125]
        else Except.error GzipErr.newReaderFailed)
        ⟨[80, 79, 83, 84], [103, 122, 105, 112], [31, 139]⟩ =
      createLogHandler (fun z => if z = [31, 139] then Except.ok [123, 125]
        else Except.error GzipErr.newReaderFailed)
        ⟨[80, 79, 83, 84], [], [123, 125]⟩ := by
  have h := c3_gzip_equivalent (fun z => if z = [31, 139] then Except.ok [123, 125]
      else Except.error GzipErr.newReaderFailed)
    [80, 79, 83, 84] [103, 122, 105, 112] [31, 139] [123, 125] [123, 125]
    rfl rfl rfl
  exact ⟨rfl, rfl, rfl, h⟩

/-- C4 counterexample: the body made of two top-level JSON values is a
request body for which the handler writes no line at all (it rejects
the body with 400), refuting that every request body yields exactly one
output line regardless of how many top-level values it contains. -/
theorem c4_counterexample :
    (createLogHandler (fun _ => Except.error GzipErr.newReaderFailed)
        ⟨[80, 79, 83, 84], [], [123, 125, 32, 123, 125]⟩).1.status = 400
    ∧ ¬ ∃ l : List Nat,
      (createLogHandler (fun _ => Except.error GzipErr.newReaderFailed)
        ⟨[80, 79, 83, 84], [], [123, 125, 32, 123, 125]⟩).2 = l ++ [10] := by
  refine ⟨rfl, ?_⟩
  intro ⟨l, hl⟩
  have hz : (createLogHandler (fun _ => Except.error GzipErr.newReaderFailed)
      ⟨[80, 79, 83, 84], [], [123, 125, 32, 123, 125]⟩).2 = [] := rfl
  rw [hz] at hl
  simp at hl

/-- C4 amended: every request yields at most one log line: exactly one
newline-terminated line free of interior newlines when the decoded body
is one well-formed JSON value, and zero lines otherwise; in particular
a JSON array of several objects yields exactly one compacted line
representing the whole array. -/
theorem c4_one_line_amended :
    (∀ (g : List Nat → Except GzipErr (List Nat)) (r : Request),
      (createLogHandler g r).2 = []
      ∨ ∃ c, (createLogHandler g r).2 = c ++ [10] ∧ ¬ 10 ∈ c)
    ∧ createLogHandler (fun _ => Except.error GzipErr.newReaderFailed)
        ⟨[80, 79, 83, 84], [],
         [91, 123, 34, 97, 34, 58, 49, 125, 44, 32, 123, 34, 98, 34, 58, 50, 125, 93]⟩ =
      (⟨200, appJsonCT, successBody⟩,
       [91, 123, 34, 97, 34, 58, 49, 125, 44, 123, 34, 98, 34, 58, 50, 125, 93] ++ [10]) := by
  have hp : ∀ b : List Nat, (processBody b).2 = []
      ∨ ∃ c, (processBody b).2 = c ++ [10] ∧ ¬ 10 ∈ c := by
    intro b
    unfold processBody
    split
    · left
      rfl
    · right
      rename_i c hjc
      exact ⟨c, rfl, jsonCompact_no_newline hjc⟩
  constructor
  · intro g r
    unfold createLogHandler
    split
    · split
      · left
        rfl
      · left
        rfl
      · exact hp _
    · exact hp _
  · rfl

/-- C5: decompression is attempted exactly when the lower-cased
Content-Encoding value contains gzip: without the match the handler is
independent of the decompressor and processes the raw body bytes; with
the match the result is determined by the decompressor output. -/
theorem c5_gzip_dispatch :
    ∀ (g1 g2 : List Nat → Except GzipErr (List Nat)) (r : Request),
      (hasGzipEnc r.contentEncoding = false →
        createLogHandler g1 r = processBody r.body
        ∧ createLogHandler g1 r = createLogHandler g2 r)
      ∧ (hasGzipEnc r.contentEncoding = true →
        createLogHandler g1 r =
          (match g1 r.body with
           | Except.error GzipErr.newReaderFailed => (httpError gzipReaderMsg 400, [])
           | Except.error GzipErr.readFailed => (httpError readBodyMsg 400, [])
           | Except.ok b => processBody b)) := by
  intro g1 g2 r
  constructor
  · intro h
    constructor
    · simp [createLogHandler, h]
    · simp [createLogHandler, h]
  · intro h
    simp [createLogHandler, h]

/-- Witness for C5: one request without the header and one with it. -/
theorem c5_witness :
    (createLogHandler (fun _ => Except.error GzipErr.newReaderFailed)
        ⟨[80, 79, 83, 84], [], [123, 125]⟩ = processBody [123, 125]
      ∧ createLogHandler (fun _ => Except.error GzipErr.newReaderFailed)
          ⟨[80, 79, 83, 84], [], [123, 125]⟩ =
        createLogHandler (fun _ => Except.error GzipErr.readFailed)
          ⟨[80, 79, 83, 84], [], [123, 125]⟩)
    ∧ createLogHandler (fun _ => Except.error GzipErr.newReaderFailed)
        ⟨[80, 79, 83, 84], [71, 90, 105, 80], [123, 125]⟩ =
      (httpError gzipReaderMsg 400, []) := by
  refine ⟨?_, ?_⟩
  · exact (c5_gzip_dispatch (fun _ => Except.error GzipErr.newReaderFailed)
      (fun _ => Except.error GzipErr.readFailed)
      ⟨[80, 79, 83, 84], [], [123, 125]⟩).1 rfl
  · have h := (c5_gzip_dispatch (fun _ => Except.error GzipErr.newReaderFailed)
      (fun _ => Except.error GzipErr.newReaderFailed)
      ⟨[80, 79, 83, 84], [71, 90, 105, 80], [123, 125]⟩).2 rfl
    exact h

/-- C6: when the Content-Encoding indicates gzip and the decompressor
fails, the handler responds 400 with the matching fixed error message,
writes nothing to the log sink, and returns a response rather than
terminating (the handler is a total function). -/
theorem c6_gzip_failure :
    ∀ (g : List Nat → Except GzipErr (List Nat)) (m enc z : List Nat) (e : GzipErr),
      hasGzipEnc enc = true → g z = Except.error e →
      createLogHandler g ⟨m, enc, z⟩ =
        (httpError (match e with
          | GzipErr.newReaderFailed => gzipReaderMsg
          | GzipErr.readFailed => readBodyMsg) 400, []) := by
  intro g m enc z e henc hge
  cases e <;> simp [createLogHandler, henc, hge]

/-- Witness for C6 with a decompressor that rejects the stream. -/
theorem c6_witness :
    hasGzipEnc [103, 122, 105, 112] = true
    ∧ (fun _ : List Nat =>
        (Except.error GzipErr.readFailed : Except GzipErr (List Nat))) [0] =
      Except.error GzipErr.readFailed
    ∧ createLogHandler (fun _ => Except.error GzipErr.readFailed)
        ⟨[80, 79, 83, 84], [103, 122, 105, 112], [0]⟩ =
      (httpError readBodyMsg 400, []) := by
  have h := c6_gzip_failure (fun _ => Except.error GzipErr.readFailed)
    [80, 79, 83, 84] [103, 122, 105, 112] [0] GzipErr.readFailed rfl rfl
  exact ⟨rfl, rfl, h⟩

/-- C7: the request method never influences the handler: two requests
identical but for the method produce identical responses and identical
log output. -/
theorem c7_method_irrelevant :
    ∀ (g : List Nat → Except GzipErr (List Nat)) (m1 m2 enc body : List Nat),
      createLogHandler g ⟨m1, enc, body⟩ = createLogHandler g ⟨m2, enc, body⟩ := by
  intro g m1 m2 enc body
  rfl

/-- C8: compaction is idempotent: submitting an already-compact JSON
line (the compaction of any body) logs a line byte-identical to the
input. -/
theorem c8_compaction_idempotent :
    ∀ (g : List Nat → Except GzipErr (List Nat)) (m enc b c : List Nat),
      hasGzipEnc enc = false → jsonCompact b = some c →
      jsonCompact c = some c
      ∧ createLogHandler g ⟨m, enc, c⟩ = (⟨200, appJsonCT, successBody⟩, c ++ [10]) := by
  intro g m enc b c henc hc
  have hidem := jsonCompact_idem hc
  refine ⟨hidem, ?_⟩
  simp [createLogHandler, henc, processBody, hidem]

/-- Witness for C8 on a concrete compact line. -/
theorem c8_witness :
    hasGzipEnc [] = false
    ∧ jsonCompact [123, 34, 97, 34, 58, 32, 49, 125] = some [123, 34, 97, 34, 58, 49, 125]
    ∧ jsonCompact [123, 34, 97, 34, 58, 49, 125] = some [123, 34, 97, 34, 58, 49, 125]
    ∧ createLogHandler (fun _ => Except.error GzipErr.newReaderFailed)
        ⟨[71, 69, 84], [], [123, 34, 97, 34, 58, 49, 125]⟩ =
      (⟨200, appJsonCT, successBody⟩, [123, 34, 97, 34, 58, 49, 125] ++ [10]) := by
  have h := c8_compaction_idempotent (fun _ => Except.error GzipErr.newReaderFailed)
    [71, 69, 84] [] [123, 34, 97, 34, 58, 32, 49, 125] [123, 34, 97, 34, 58, 49, 125]
    rfl rfl
  exact ⟨rfl, rfl, h.1, h.2⟩

/-- C9: the health endpoint responds 200 with the fixed healthy body and
content type application/json for every method, header value, and body. -/
theorem c9_health_constant :
    ∀ m enc body : List Nat,
      (healthHandler ⟨m, enc, body⟩).status = 200
      ∧ (healthHandler ⟨m, enc, body⟩).contentType = appJsonCT
      ∧ (healthHandler ⟨m, enc, body⟩).body = healthyBody := by
  intro m enc body
  exact ⟨rfl, rfl, rfl⟩

/-- C10: every 400 response carries one of the three fixed JSON error
objects followed by a trailing newline as its body, and its Content-Type
is the text/plain value http.Error sets, which differs from the
application/json value installed at the start of the handler. -/
theorem c10_error_shape :
    ∀ (g : List Nat → Except GzipErr (List Nat)) (r : Request),
      (createLogHandler g r).1.status = 400 →
      (createLogHandler g r).1.contentType = textPlainCT
      ∧ textPlainCT ≠ appJsonCT
      ∧ ((createLogHandler g r).1.body = gzipReaderMsg ++ [10]
        ∨ (createLogHandler g r).1.body = readBodyMsg ++ [10]
        ∨ (createLogHandler g r).1.body = invalidJsonMsg ++ [10]) := by
  intro g r h
  have hne : textPlainCT ≠ appJsonCT := by decide
  have hcases : createLogHandler g r = (httpError gzipReaderMsg 400, [])
      ∨ createLogHandler g r = (httpError readBodyMsg 400, [])
      ∨ createLogHandler g r = (httpError invalidJsonMsg 400, [])
      ∨ ∃ c, createLogHandler g r = (⟨200, appJsonCT, successBody⟩, c ++ [10]) := by
    have hp : ∀ b : List Nat, processBody b = (httpError invalidJsonMsg 400, [])
        ∨ ∃ c, processBody b = (⟨200, appJsonCT, successBody⟩, c ++ [10]) := by
      intro b
      unfold processBody
      split
      · exact Or.inl rfl
      · rename_i c hjc
        exact Or.inr ⟨c, rfl⟩
    unfold createLogHandler
    split
    · split
      · exact Or.inl rfl
      · exact Or.inr (Or.inl rfl)
      · rcases hp _ with h1 | ⟨c, h2⟩
        · exact Or.inr (Or.inr (Or.inl h1))
        · exact Or.inr (Or.inr (Or.inr ⟨c, h2⟩))
    · rcases hp _ with h1 | ⟨c, h2⟩
      · exact Or.inr (Or.inr (Or.inl h1))
      · exact Or.inr (Or.inr (Or.inr ⟨c, h2⟩))
  rcases hcases with h1 | h1 | h1 | ⟨c, h1⟩
  · rw [h1]
    exact ⟨rfl, hne, Or.inl rfl⟩
  · rw [h1]
    exact ⟨rfl, hne, Or.inr (Or.inl rfl)⟩
  · rw [h1]
    exact ⟨rfl, hne, Or.inr (Or.inr rfl)⟩
  · rw [h1] at h
    simp at h

/-- Witness for C10 at a request with a non-JSON body. -/
theorem c10_witness :
    (createLogHandler (fun _ => Except.error GzipErr.newReaderFailed)
        ⟨[80, 79, 83, 84], [], [120]⟩).1.status = 400
    ∧ (createLogHandler (fun _ => Except.error GzipErr.newReaderFailed)
        ⟨[80, 79, 83, 84], [], [120]⟩).1.contentType = textPlainCT
    ∧ textPlainCT ≠ appJsonCT
    ∧ ((createLogHandler (fun _ => Except.error GzipErr.newReaderFailed)
        ⟨[80, 79, 83, 84], [], [120]⟩).1.body = gzipReaderMsg ++ [10]
      ∨ (createLogHandler (fun _ => Except.error GzipErr.newReaderFailed)
        ⟨[80, 79, 83, 84], [], [120]⟩).1.body = readBodyMsg ++ [10]
      ∨ (createLogHandler (fun _ => Except.error GzipErr.newReaderFailed)
        ⟨[80, 79, 83, 84], [], [120]⟩).1.body = invalidJsonMsg ++ [10]) := by
  have h := c10_error_shape (fun _ => Except.error GzipErr.newReaderFailed)
    ⟨[80, 79, 83, 84], [], [120]⟩ rfl
  exact ⟨rfl, h.1, h.2.1, h.2.2⟩

end LogWebhook
